import Mathlib

set_option maxHeartbeats 1000000

namespace Permuto

open Matrix

/-!
Verification development for the permutohedral-encoding repository
(`src/csrc/permuto/src/permuto.cpp` plus the specified encoder engine).

Part 1 embeds the tensor *shape* semantics of the torch operations used
by `random_rotation_in_zero_sum_subspace_cuda` (permuto.cpp lines 42-62).

Part 2 embeds the linear-algebra content of the same function: the
centered matrix `I - 1·1ᵀ/(dim+1)` of line 46, column slicing of line 47,
and the per-batch-element product `Q @ R @ Qᵀ` of line 61.  The host
library's `torch::linalg::qr` is external code; it is modelled by its
contract `IsQR` (orthonormal factor, upper-triangular factor, product
recovers the input).

Part 3 models the encoder engine itself (`PermutoEncMeta`,
`permuto_enc_fwd`, `permuto_enc_bwd`, `permuto_enc_bwd_bwd_input`); that
code lives in `permuto/permuto.h` and the CUDA kernels, which are not
part of the given sources, so those definitions are modelled from the
spec and say so in their doc comments.
-/

/-- Shape of `torch::eye(n)`: an `n` by `n` matrix. -/
def eyeShape (n : ℕ) : List ℕ := [n, n]

/-- Shape semantics of `Tensor::transpose(0, 1)` on a 2-D tensor. -/
def transpose01Shape : List ℕ → Option (List ℕ)
  | [a, b] => some [b, a]
  | _ => none

/-- Shape semantics of `torch::matmul` for the 2-D and same-batch 3-D
cases that occur in the source; `none` models a shape error. -/
def matmulShape : List ℕ → List ℕ → Option (List ℕ)
  | [a, b], [c, e] => if b = c then some [a, e] else none
  | [n, a, b], [m, c, e] => if n = m ∧ b = c then some [n, a, e] else none
  | _, _ => none

/-- Shape semantics of elementwise subtraction between two tensors of
identical shape (the only case used at permuto.cpp line 46). -/
def subShape (s t : List ℕ) : Option (List ℕ) := if s = t then some s else none

/-- Shape of the `Q` factor of `torch::linalg::qr` in its default
(reduced) mode: a `[m, n]` input yields a `[m, min m n]` factor. -/
def qrQShape : List ℕ → Option (List ℕ)
  | [m, n] => some [m, min m n]
  | _ => none

/-- Shape semantics of `Tensor::slice(1, 0, -1)`: drop the last column. -/
def sliceColsDropLast : List ℕ → Option (List ℕ)
  | [m, n] => some [m, n - 1]
  | _ => none

/-- Shape semantics of `Tensor::unsqueeze(0)`. -/
def unsqueeze0Shape (s : List ℕ) : List ℕ := 1 :: s

/-- Shape semantics of `Tensor::expand(num, -1, -1)` on a 3-D tensor. -/
def expandBatch (num : ℕ) : List ℕ → Option (List ℕ)
  | [b, a, c] => if b = 1 ∨ b = num then some [num, a, c] else none
  | _ => none

/-- Shape of `R_sub[i]`: indexing a 3-D tensor along its batch dimension. -/
def indexBatch : List ℕ → Option (List ℕ)
  | [_, a, b] => some [a, b]
  | _ => none

/-- Shape check of the in-place assignment `R_sub[i] = R`. -/
def assignShape (dst src : List ℕ) : Option Unit := if dst = src then some () else none

/-- Result shape of `random_rotation_in_zero_sum_subspace_cuda(dim, num, …)`,
traced operation by operation from permuto.cpp lines 44-61. -/
def random_rotation_in_zero_sum_subspace_shape (dim num : ℕ) : Option (List ℕ) :=
  (transpose01Shape [dim + 1, 1]).bind fun onesT =>
  (matmulShape [dim + 1, 1] onesT).bind fun outer =>
  (subShape (eyeShape (dim + 1)) outer).bind fun centered =>
  (qrQShape centered).bind fun qFull =>
  (sliceColsDropLast qFull).bind fun q =>
  (indexBatch [num, dim, dim]).bind fun ri =>
  (qrQShape ri).bind fun riQ =>
  (assignShape ri riQ).bind fun _ =>
  (transpose01Shape q).bind fun qT2 =>
  (expandBatch num (unsqueeze0Shape qT2)).bind fun qT =>
  (expandBatch num (unsqueeze0Shape q)).bind fun qExp =>
  (matmulShape [num, dim, dim] qT).bind fun inner =>
  matmulShape qExp inner

/-- The all-ones vector of length `dim + 1` (the uniform direction). -/
def onesVec (d : ℕ) : Fin (d + 1) → ℝ := fun _ => 1

/-- The centered matrix `I - ones·onesᵀ/(dim+1)` built at permuto.cpp
line 46; entrywise it is `δᵢⱼ - 1/(dim+1)`. -/
noncomputable def centerMat (d : ℕ) : Matrix (Fin (d + 1)) (Fin (d + 1)) ℝ :=
  Matrix.of fun i j => (if i = j then (1 : ℝ) else 0) - ((d : ℝ) + 1)⁻¹

/-- Contract of the external `torch::linalg::qr` on a square input: the
first factor has orthonormal columns, the second is upper triangular,
and their product recovers the input. -/
def IsQR {n : ℕ} (A Q R : Matrix (Fin n) (Fin n) ℝ) : Prop :=
  Qᵀ * Q = 1 ∧ Matrix.BlockTriangular R id ∧ A = Q * R

/-- `Q.slice(1, 0, -1)` of permuto.cpp line 47: keep all but the last
column of the square factor. -/
def sliceQ (d : ℕ) (qFull : Matrix (Fin (d + 1)) (Fin (d + 1)) ℝ) :
    Matrix (Fin (d + 1)) (Fin d) ℝ :=
  Matrix.of fun i j => qFull i j.castSucc

/-- One batch element of the product `Q_exp @ (R_sub @ Q_T)` returned at
permuto.cpp line 61: `Q' * Rᵢ * Q'ᵀ` with `Q'` the sliced factor. -/
noncomputable def rotationMatrix (d : ℕ) (qFull : Matrix (Fin (d + 1)) (Fin (d + 1)) ℝ)
    (ri : Matrix (Fin d) (Fin d) ℝ) : Matrix (Fin (d + 1)) (Fin (d + 1)) ℝ :=
  sliceQ d qFull * ri * (sliceQ d qFull)ᵀ

/-- A concrete orthogonal factor of a QR factorization of `centerMat 1`,
used to instantiate the QR contract at `dim = 1`. -/
noncomputable def qWitness : Matrix (Fin 2) (Fin 2) ℝ :=
  ![![(Real.sqrt 2)⁻¹, (Real.sqrt 2)⁻¹], ![-(Real.sqrt 2)⁻¹, (Real.sqrt 2)⁻¹]]

/-- The matching upper-triangular factor for `qWitness`. -/
noncomputable def rWitness : Matrix (Fin 2) (Fin 2) ℝ :=
  ![![Real.sqrt 2 / 2, -(Real.sqrt 2 / 2)], ![0, 0]]

/-- Modelled from the spec: the `EncodingMeta` configuration object of
§3 with the field names exposed read-only by the binding
(permuto.cpp lines 87-101).  The defining C++ struct lives in
`permuto/permuto.h`, which is not among the given sources. -/
structure PermutoEncMeta where
  level_scales_multidim : List (List ℚ)
  level_scales0 : List ℚ
  level_n_feats : List ℕ
  level_n_params : List ℕ
  level_offsets : List ℕ
  level_sizes : List ℕ
  map_levels : List ℕ
  map_cnt : List ℕ
  n_levels : ℕ
  n_pseudo_levels : ℕ
  n_feat_per_pseudo_lvl : ℕ
  n_dims_to_encode : ℕ
  n_encoded_dims : ℕ
  n_params : ℕ
deriving Repr, DecidableEq

/-- Modelled from the spec: the spec names an
`analytic_lattice_point_count(resolution)` for the number of addressable
lattice vertices of a level but gives no closed formula; any monotone
count works for the properties claimed, so a simple grid bound is used. -/
def lattice_point_count (d : ℕ) (res : ℚ) : ℕ := (res.ceil.toNat + 1) ^ d

/-- Validity of a `build_meta` configuration, exactly the three
conditions of §4.1 and §7: `n_levels = res_list.length` within `[2,20]`,
every feature width at least 2, and matching list lengths. -/
def validConfig (res_list : List ℚ) (n_feats_list : List ℕ) : Prop :=
  2 ≤ res_list.length ∧ res_list.length ≤ 20 ∧
    (∀ f ∈ n_feats_list, 2 ≤ f) ∧ n_feats_list.length = res_list.length

instance (res_list : List ℚ) (n_feats_list : List ℕ) :
    Decidable (validConfig res_list n_feats_list) := by
  unfold validConfig
  infer_instance

/-- Modelled from the spec: the Layout Planner / `PermutoEncMeta`
constructor of §4.1 (`build_meta`), whose C++ body is in
`permuto/permuto.h`.  It validates the configuration and fails with a
configuration error before anything else, otherwise it lays out sizes,
offsets and the pseudo-level expansion. -/
def build_meta (n_input_dim : ℕ) (hashmap_size : ℕ) (res_list : List ℚ)
    (n_feats_list : List ℕ) : Except String PermutoEncMeta :=
  if res_list.length < 2 ∨ 20 < res_list.length then
    Except.error ("config: n_levels must lie in [2, 20]")
  else if ∃ f ∈ n_feats_list, f < 2 then
    Except.error ("config: every n_feats must be at least 2")
  else if n_feats_list.length ≠ res_list.length then
    Except.error ("config: res_list and n_feats_list lengths mismatch")
  else
    let sizes := res_list.map fun r => min hashmap_size (lattice_point_count n_input_dim r)
    let offsets := (List.range res_list.length).map fun l => (sizes.take l).sum
    let width := n_feats_list.foldr Nat.gcd 0
    let map_levels := (List.range res_list.length).flatMap fun l =>
      List.replicate (n_feats_list.getD l 0 / width) l
    let map_cnt := (List.range res_list.length).flatMap fun l =>
      List.range (n_feats_list.getD l 0 / width)
    Except.ok
      { level_scales_multidim := res_list.map fun r => List.replicate n_input_dim r
        level_scales0 := res_list
        level_n_feats := n_feats_list
        level_n_params := sizes
        level_offsets := offsets
        level_sizes := sizes
        map_levels := map_levels
        map_cnt := map_cnt
        n_levels := res_list.length
        n_pseudo_levels := map_levels.length
        n_feat_per_pseudo_lvl := width
        n_dims_to_encode := n_input_dim
        n_encoded_dims := n_feats_list.sum
        n_params := sizes.sum }

/-- Rounding to the nearest integer, used to find the closest lattice
point in the embedded space. -/
def roundq (q : ℚ) : ℤ := ⌊q + 1 / 2⌋

/-- Modelled from the spec: §4.2's fixed elevation of a `d`-dimensional
point into the `(d+1)`-dimensional zero-sum frame (the spec fixes no
particular elevation matrix; this linear one lands on the hyperplane:
the coordinates always sum to zero). -/
def elevate (x : List ℚ) : List ℚ :=
  let d := x.length
  let s := x.sum
  (x.map fun xi => ((d : ℚ) + 1) * xi - s) ++ [-s]

/-- Nearest multiple of `d+1` for each elevated coordinate (§4.2's
remainder-based rounding). -/
def rem0 (d : ℕ) (e : List ℚ) : List ℤ :=
  e.map fun ei => ((d : ℤ) + 1) * roundq (ei / ((d : ℚ) + 1))

/-- Fractional remainders scaled by `1/(d+1)`. -/
def deltasOf (d : ℕ) (e : List ℚ) (r0 : List ℤ) : List ℚ :=
  List.zipWith (fun ei ri => (ei - (ri : ℚ)) / ((d : ℚ) + 1)) e r0

/-- Modelled from the spec: the permutohedral rank/sort step of §4.2,
counting for each coordinate how many remainders exceed it, with index
order breaking ties deterministically. -/
def rankRaw (del : List ℚ) : List ℕ :=
  let n := del.length
  (List.range n).map fun i =>
    ((List.range n).filter fun j =>
      if i < j then decide (del.getD i 0 < del.getD j 0)
      else if j < i then decide (del.getD i 0 ≤ del.getD j 0)
      else false).length

/-- The signed amount by which the rounded point misses the zero-sum
hyperplane, in lattice steps. -/
def sumOffset (d : ℕ) (r0 : List ℤ) : ℤ := r0.sum / ((d : ℤ) + 1)

/-- Modelled from the spec: §4.2's correction step, bringing every rank
back into `[0, d]` once the hyperplane offset is added. -/
def rankFixed (d : ℕ) (rraw : List ℕ) (off : ℤ) : List ℕ :=
  rraw.map fun r => (((r : ℤ) + off).emod ((d : ℤ) + 1)).toNat

/-- The matching correction of the rounded lattice point (each rank
wrap moves the coordinate by `d+1`). -/
def rem0Fixed (d : ℕ) (r0 : List ℤ) (rraw : List ℕ) (off : ℤ) : List ℤ :=
  List.zipWith
    (fun ri (r : ℕ) => ri - ((d : ℤ) + 1) * (((r : ℤ) + off).ediv ((d : ℤ) + 1)))
    r0 rraw

/-- Modelled from the spec: the `k`-th enclosing simplex vertex as an
integer zero-sum key (§4.2). -/
def simplexKey (d : ℕ) (r0f : List ℤ) (rankf : List ℕ) (k : ℕ) : List ℤ :=
  (List.range (d + 1)).map fun i =>
    r0f.getD i 0 + (k : ℤ) - (if d - k < rankf.getD i 0 then (d : ℤ) + 1 else 0)

/-- Slot accumulator for the barycentric weights (§4.2): each coordinate
contributes `+δᵢ` to slot `d - rankᵢ` and `-δᵢ` to slot `d+1 - rankᵢ`. -/
def barySlot (d : ℕ) (del : List ℚ) (rankf : List ℕ) (s : ℕ) : ℚ :=
  ∑ i ∈ Finset.range (d + 1),
    del.getD i 0 * ((if d - rankf.getD i 0 = s then (1 : ℚ) else 0)
      - (if d + 1 - rankf.getD i 0 = s then (1 : ℚ) else 0))

/-- The `k`-th barycentric weight (§4.2); slot `0` absorbs the closing
`1 + b(d+1)` term. -/
def baryWeight (d : ℕ) (del : List ℚ) (rankf : List ℕ) (k : ℕ) : ℚ :=
  barySlot d del rankf k + (if k = 0 then 1 + barySlot d del rankf (d + 1) else 0)

/-- The result of one lattice traversal (§4.2): `d+1` vertex keys, their
barycentric weights, and the ranks needed by the weight Jacobian. -/
structure Traversal where
  keys : List (List ℤ)
  weights : List ℚ
  ranks : List ℕ
deriving Repr, DecidableEq

/-- Modelled from the spec: the full Lattice Traversal of §4.2 (the CUDA
kernel implementing it is not among the given sources): elevate, round,
rank the fractional remainders, correct to the hyperplane, then emit the
`d+1` simplex vertices and their weights. -/
def traverse (d : ℕ) (x : List ℚ) : Traversal :=
  let e := elevate x
  let r0 := rem0 d e
  let del := deltasOf d e r0
  let rr := rankRaw del
  let off := sumOffset d r0
  let rf := rankFixed d rr off
  let r0f := rem0Fixed d r0 rr off
  { keys := (List.range (d + 1)).map (simplexKey d r0f rf)
    weights := (List.range (d + 1)).map (baryWeight d del rf)
    ranks := rf }

/-- Modelled from the spec: the deterministic, stateless spatial hash of
§4.3 (the spec fixes no constants; two odd multipliers give a plain
integer hash of the key). -/
def spatialHash (key : List ℤ) : ℕ :=
  key.foldl (fun h z => h * 2654435761 + z.natAbs * 805459861) 0

/-- Modelled from the spec: the Hash/Index Resolver of §4.3 mapping a
vertex key to a parameter row in `[0, size)`. -/
def resolveIndex (size : ℕ) (key : List ℤ) : ℕ := spatialHash key % size

/-- The per-level scale vector of the meta object. -/
def scaleOf (meta : PermutoEncMeta) (l : ℕ) : List ℚ :=
  meta.level_scales_multidim.getD l []

/-- Column offset of level `l` inside the concatenated feature output. -/
def colOffset (meta : PermutoEncMeta) (l : ℕ) : ℕ :=
  (meta.level_n_feats.take l).sum

/-- The per-level entry of the optional `level_random_shifts`. -/
def shiftOf (shifts : Option (List (List ℚ))) (l : ℕ) : List ℚ :=
  (shifts.getD []).getD l []

/-- Whether level `l` is active under the optional `max_level` cutoff
(§4.4: an absent cutoff means all levels contribute). -/
def levelActive (max_level : Option ℕ) (l : ℕ) : Bool :=
  match max_level with
  | none => true
  | some m => decide (l < m)

/-- The scaled, shifted coordinate fed to the traversal at level `l`
(§4.2: the random shift is added before elevation). -/
def scaledInput (meta : PermutoEncMeta) (l : ℕ) (pos shift : List ℚ) : List ℚ :=
  (List.range meta.n_dims_to_encode).map fun i =>
    pos.getD i 0 * (scaleOf meta l).getD i 0 + shift.getD i 0

/-- Modelled from the spec: which batch a query belongs to (§4.4):
`batch_inds` gives it directly; otherwise `batch_offsets` partitions the
query range by start offsets; otherwise everything is batch 0. -/
def batchOf {N : ℕ} (batch_inds : Option (Fin N → ℕ))
    (batch_offsets : Option (List ℕ)) (n : Fin N) : ℕ :=
  match batch_inds with
  | some bi => bi n
  | none =>
    match batch_offsets with
    | some offs => (offs.filter fun o => decide (0 < o ∧ o ≤ (n : ℕ))).length
    | none => 0

/-- Modelled from the spec: the Forward Encoder's per-level locate,
gather and weighted sum (§4.4). -/
def level_forward (meta : PermutoEncMeta) (lattice_values : ℕ → ℕ → ℚ)
    (rowBase : ℕ) (l : ℕ) (pos shift : List ℚ) : List ℚ :=
  let d := meta.n_dims_to_encode
  let t := traverse d (scaledInput meta l pos shift)
  (List.range (meta.level_n_feats.getD l 0)).map fun f =>
    ((List.range (d + 1)).map fun k =>
      t.weights.getD k 0 *
        lattice_values
          (rowBase + meta.level_offsets.getD l 0 +
            resolveIndex (meta.level_sizes.getD l 1) (t.keys.getD k []))
          f).sum

/-- Modelled from the spec: `encode_forward` / `permuto_enc_fwd`
(§4.4, §6), with exactly the binding's optional arguments and defaults
(permuto.cpp lines 67-74): each of `level_random_shifts`, `batch_inds`,
`batch_offsets`, `batch_data_size` and `max_level` defaults to absent. -/
def permuto_enc_fwd {N : ℕ} (meta : PermutoEncMeta)
    (positions : Fin N → List ℚ) (lattice_values : ℕ → ℕ → ℚ)
    (level_random_shifts : Option (List (List ℚ)) := none)
    (batch_inds : Option (Fin N → ℕ) := none)
    (batch_offsets : Option (List ℕ) := none)
    (batch_data_size : Option ℕ := none)
    (max_level : Option ℕ := none) : Fin N → List ℚ :=
  fun n =>
    let rowBase := batchOf batch_inds batch_offsets n * batch_data_size.getD 0
    ((List.range meta.n_levels).map fun l =>
      if levelActive max_level l then
        level_forward meta lattice_values rowBase l (positions n)
          (shiftOf level_random_shifts l)
      else
        List.replicate (meta.level_n_feats.getD l 0) 0).flatten

/-- Derivative of elevation coordinate `i` with respect to input `j`. -/
def elevCoeff (d i j : ℕ) : ℚ := (if i = j ∧ i < d then (d : ℚ) + 1 else 0) - 1

/-- Derivative of weight `k` with respect to remainder `δᵢ` on the open
simplex cell (ranks held fixed: §4.2's piecewise-constant Jacobian). -/
def dWeightdDelta (d : ℕ) (rankf : List ℕ) (k i : ℕ) : ℚ :=
  ((if d - rankf.getD i 0 = k then (1 : ℚ) else 0)
    - (if d + 1 - rankf.getD i 0 = k then (1 : ℚ) else 0))
  + (if k = 0 then
      ((if d - rankf.getD i 0 = d + 1 then (1 : ℚ) else 0)
        - (if d + 1 - rankf.getD i 0 = d + 1 then (1 : ℚ) else 0))
     else 0)

/-- Derivative of weight `k` with respect to scaled input coordinate `j`. -/
def dWeightdX (d : ℕ) (rankf : List ℕ) (k j : ℕ) : ℚ :=
  ∑ i ∈ Finset.range (d + 1),
    dWeightdDelta d rankf k i * elevCoeff d i j / ((d : ℚ) + 1)

/-- Modelled from the spec: one query's scatter contribution to
`dL_dparams` (§4.5); the full gradient is the sum of these over the
batch. -/
def point_param_grad (meta : PermutoEncMeta) (rowBase : ℕ) (pos : List ℚ)
    (shifts : Option (List (List ℚ))) (max_level : Option ℕ)
    (dLdy : ℕ → ℚ) (r f : ℕ) : ℚ :=
  ∑ l ∈ Finset.range meta.n_levels,
    if levelActive max_level l then
      (let d := meta.n_dims_to_encode
       let t := traverse d (scaledInput meta l pos (shiftOf shifts l))
       ∑ k ∈ Finset.range (d + 1),
         if rowBase + meta.level_offsets.getD l 0 +
              resolveIndex (meta.level_sizes.getD l 1) (t.keys.getD k []) = r ∧
            f < meta.level_n_feats.getD l 0 then
           t.weights.getD k 0 * dLdy (colOffset meta l + f)
         else 0)
    else 0

/-- Modelled from the spec: one query's input gradient (§4.5), combining
the piecewise-constant weight Jacobian with the gathered feature rows and
the output gradient, truncated to the first `max_pos_dims` coordinates. -/
def point_input_grad (meta : PermutoEncMeta) (lattice_values : ℕ → ℕ → ℚ)
    (rowBase : ℕ) (pos : List ℚ) (shifts : Option (List (List ℚ)))
    (max_level : Option ℕ) (dLdy : ℕ → ℚ) (max_pos_dims : ℕ) : List ℚ :=
  (List.range (min max_pos_dims meta.n_dims_to_encode)).map fun j =>
    ∑ l ∈ Finset.range meta.n_levels,
      if levelActive max_level l then
        (let d := meta.n_dims_to_encode
         let t := traverse d (scaledInput meta l pos (shiftOf shifts l))
         (scaleOf meta l).getD j 0 *
           ∑ k ∈ Finset.range (d + 1),
             dWeightdX d t.ranks k j *
               ∑ f ∈ Finset.range (meta.level_n_feats.getD l 0),
                 lattice_values
                   (rowBase + meta.level_offsets.getD l 0 +
                     resolveIndex (meta.level_sizes.getD l 1) (t.keys.getD k [])) f *
                   dLdy (colOffset meta l + f))
      else 0

/-- Modelled from the spec: `encode_backward` / `permuto_enc_bwd`
(§4.5, §6) with the binding's argument structure (permuto.cpp line 75):
`max_pos_dims` is required, the `need_*` flags are optional and absent
by default, and each flag only gates whether the corresponding output is
produced. -/
def permuto_enc_bwd {N : ℕ} (meta : PermutoEncMeta) (dL_dy : Fin N → ℕ → ℚ)
    (positions : Fin N → List ℚ) (lattice_values : ℕ → ℕ → ℚ)
    (level_random_shifts : Option (List (List ℚ)) := none)
    (batch_inds : Option (Fin N → ℕ) := none)
    (batch_offsets : Option (List ℕ) := none)
    (batch_data_size : Option ℕ := none)
    (max_level : Option ℕ := none)
    (max_pos_dims : ℕ)
    (need_input_grad : Option Bool := none)
    (need_param_grad : Option Bool := none) :
    Option (Fin N → List ℚ) × Option (ℕ → ℕ → ℚ) :=
  (if need_input_grad = some true then
      some fun n =>
        point_input_grad meta lattice_values
          (batchOf batch_inds batch_offsets n * batch_data_size.getD 0)
          (positions n) level_random_shifts max_level (dL_dy n) max_pos_dims
    else none,
   if need_param_grad = some true then
      some fun r f =>
        ∑ n : Fin N,
          point_param_grad meta
            (batchOf batch_inds batch_offsets n * batch_data_size.getD 0)
            (positions n) level_random_shifts max_level (dL_dy n) r f
    else none)

/-- Modelled from the spec: one query's contribution to `dL_d(dL_dy)` in
the second-order pass (§4.6): the first-order weight-gradient term
re-applied to the incoming `dL_d(dL_dx)` tensor. -/
def point_bwd_bwd_dLdy (meta : PermutoEncMeta) (lattice_values : ℕ → ℕ → ℚ)
    (rowBase : ℕ) (pos : List ℚ) (shifts : Option (List (List ℚ)))
    (max_level : Option ℕ) (dLddLdx : List ℚ) (c : ℕ) : ℚ :=
  ∑ l ∈ Finset.range meta.n_levels,
    if levelActive max_level l = true ∧ colOffset meta l ≤ c ∧
        c < colOffset meta l + meta.level_n_feats.getD l 0 then
      (let d := meta.n_dims_to_encode
       let t := traverse d (scaledInput meta l pos (shiftOf shifts l))
       ∑ k ∈ Finset.range (d + 1),
         (∑ j ∈ Finset.range meta.n_dims_to_encode,
             dWeightdX d t.ranks k j * (scaleOf meta l).getD j 0 *
               dLddLdx.getD j 0) *
           lattice_values
             (rowBase + meta.level_offsets.getD l 0 +
               resolveIndex (meta.level_sizes.getD l 1) (t.keys.getD k []))
             (c - colOffset meta l))
    else 0

/-- Modelled from the spec: one query's contribution to the second-order
parameter gradient (§4.6). -/
def point_bwd_bwd_param_grad (meta : PermutoEncMeta) (rowBase : ℕ)
    (pos : List ℚ) (shifts : Option (List (List ℚ))) (max_level : Option ℕ)
    (dLddLdx : List ℚ) (dLdy : ℕ → ℚ) (r f : ℕ) : ℚ :=
  ∑ l ∈ Finset.range meta.n_levels,
    if levelActive max_level l = true ∧ f < meta.level_n_feats.getD l 0 then
      (let d := meta.n_dims_to_encode
       let t := traverse d (scaledInput meta l pos (shiftOf shifts l))
       ∑ k ∈ Finset.range (d + 1),
         if rowBase + meta.level_offsets.getD l 0 +
              resolveIndex (meta.level_sizes.getD l 1) (t.keys.getD k []) = r then
           (∑ j ∈ Finset.range meta.n_dims_to_encode,
               dWeightdX d t.ranks k j * (scaleOf meta l).getD j 0 *
                 dLddLdx.getD j 0) *
             dLdy (colOffset meta l + f)
         else 0)
    else 0

/-- Modelled from the spec: `encode_backward_backward_input` /
`permuto_enc_bwd_bwd_input` (§4.6, §6) with the binding's defaults
(permuto.cpp line 76). -/
def permuto_enc_bwd_bwd_input {N : ℕ} (meta : PermutoEncMeta)
    (dL_ddLdx : Fin N → List ℚ) (dL_dy : Fin N → ℕ → ℚ)
    (positions : Fin N → List ℚ) (lattice_values : ℕ → ℕ → ℚ)
    (level_random_shifts : Option (List (List ℚ)) := none)
    (batch_inds : Option (Fin N → ℕ) := none)
    (batch_offsets : Option (List ℕ) := none)
    (batch_data_size : Option ℕ := none)
    (max_level : Option ℕ := none)
    (need_dL_ddLdy : Option Bool := none)
    (need_dL_dparams : Option Bool := none) :
    Option (Fin N → ℕ → ℚ) × Option (ℕ → ℕ → ℚ) :=
  (if need_dL_ddLdy = some true then
      some fun n c =>
        point_bwd_bwd_dLdy meta lattice_values
          (batchOf batch_inds batch_offsets n * batch_data_size.getD 0)
          (positions n) level_random_shifts max_level (dL_ddLdx n) c
    else none,
   if need_dL_dparams = some true then
      some fun r f =>
        ∑ n : Fin N,
          point_bwd_bwd_param_grad meta
            (batchOf batch_inds batch_offsets n * batch_data_size.getD 0)
            (positions n) level_random_shifts max_level (dL_ddLdx n) (dL_dy n) r f
    else none)

/-- Host-side state visible through the binding: the shared meta object
plus the global random-number-generator state of the host library. -/
structure SysState where
  meta : PermutoEncMeta
  rng : ℕ
deriving Repr, DecidableEq

/-- A minimal meta value, used only to build concrete host states. -/
def metaEmpty : PermutoEncMeta :=
  ⟨[], [], [], [], [], [], [], [], 0, 0, 0, 0, 0, 0⟩

/-- The binding-level forward call as a state operation: pure, so the
state is returned untouched. -/
def api_encode_forward {N : ℕ} (s : SysState) (positions : Fin N → List ℚ)
    (lattice_values : ℕ → ℕ → ℚ) (shifts : Option (List (List ℚ)))
    (batch_inds : Option (Fin N → ℕ)) (batch_offsets : Option (List ℕ))
    (batch_data_size : Option ℕ) (max_level : Option ℕ) :
    SysState × (Fin N → List ℚ) :=
  (s, permuto_enc_fwd s.meta positions lattice_values shifts batch_inds
    batch_offsets batch_data_size max_level)

/-- The binding-level backward call as a state operation. -/
def api_encode_backward {N : ℕ} (s : SysState) (dL_dy : Fin N → ℕ → ℚ)
    (positions : Fin N → List ℚ) (lattice_values : ℕ → ℕ → ℚ)
    (shifts : Option (List (List ℚ))) (batch_inds : Option (Fin N → ℕ))
    (batch_offsets : Option (List ℕ)) (batch_data_size : Option ℕ)
    (max_level : Option ℕ) (max_pos_dims : ℕ)
    (need_input_grad need_param_grad : Option Bool) :
    SysState × (Option (Fin N → List ℚ) × Option (ℕ → ℕ → ℚ)) :=
  (s, permuto_enc_bwd s.meta dL_dy positions lattice_values shifts batch_inds
    batch_offsets batch_data_size max_level max_pos_dims need_input_grad
    need_param_grad)

/-- The binding-level second-order backward call as a state operation. -/
def api_encode_backward_backward_input {N : ℕ} (s : SysState)
    (dL_ddLdx : Fin N → List ℚ) (dL_dy : Fin N → ℕ → ℚ)
    (positions : Fin N → List ℚ) (lattice_values : ℕ → ℕ → ℚ)
    (shifts : Option (List (List ℚ))) (batch_inds : Option (Fin N → ℕ))
    (batch_offsets : Option (List ℕ)) (batch_data_size : Option ℕ)
    (max_level : Option ℕ) (need_dL_ddLdy need_dL_dparams : Option Bool) :
    SysState × (Option (Fin N → ℕ → ℚ) × Option (ℕ → ℕ → ℚ)) :=
  (s, permuto_enc_bwd_bwd_input s.meta dL_ddLdx dL_dy positions lattice_values
    shifts batch_inds batch_offsets batch_data_size max_level need_dL_ddLdy
    need_dL_dparams)

/-- Binding-level attribute access: the meta fields are exposed only via
`def_readonly` (permuto.cpp lines 87-101), so reads return values and no
write operation exists. -/
def api_read_meta (s : SysState) : SysState × PermutoEncMeta := (s, s.meta)

/-- Modelled from the spec and the host generator contract:
`random_rotation_in_zero_sum_subspace_cuda` draws `num·dim·dim` normal
samples (permuto.cpp line 50), advancing the global generator; the
returned tensor is a function of the pre-call generator state. -/
def api_random_rotation (s : SysState) (dim num : ℕ) : SysState × ℕ :=
  ({ meta := s.meta, rng := s.rng + num * dim * dim }, s.rng)

section CenterMatLemmas

lemma centerMat_apply (d : ℕ) (i j : Fin (d + 1)) :
    centerMat d i j = (if i = j then (1 : ℝ) else 0) - ((d : ℝ) + 1)⁻¹ := rfl

lemma dimSucc_ne_zero (d : ℕ) : ((d : ℝ) + 1) ≠ 0 := by positivity

lemma centerMat_transpose (d : ℕ) : (centerMat d)ᵀ = centerMat d := by
  ext i j
  simp [centerMat, Matrix.transpose_apply, eq_comm]

lemma centerMat_col_sum (d : ℕ) (j : Fin (d + 1)) :
    (∑ i, centerMat d i j) = 0 := by
  have hne := dimSucc_ne_zero d
  simp only [centerMat_apply, Finset.sum_sub_distrib, Finset.sum_ite_eq',
    Finset.mem_univ, if_true, Finset.sum_const, Finset.card_univ,
    Fintype.card_fin, nsmul_eq_mul]
  push_cast
  rw [mul_inv_cancel₀ hne, sub_self]

lemma centerMat_idem (d : ℕ) : centerMat d * centerMat d = centerMat d := by
  have hne := dimSucc_ne_zero d
  ext i j
  simp only [Matrix.mul_apply, centerMat_apply]
  have hterm : ∀ k : Fin (d + 1),
      ((if i = k then (1 : ℝ) else 0) - ((d : ℝ) + 1)⁻¹) *
        ((if k = j then (1 : ℝ) else 0) - ((d : ℝ) + 1)⁻¹) =
      (if i = k then (1 : ℝ) else 0) * (if k = j then (1 : ℝ) else 0)
        - ((d : ℝ) + 1)⁻¹ * (if i = k then (1 : ℝ) else 0)
        - ((d : ℝ) + 1)⁻¹ * (if k = j then (1 : ℝ) else 0)
        + ((d : ℝ) + 1)⁻¹ * ((d : ℝ) + 1)⁻¹ := by
    intro k; ring
  rw [Finset.sum_congr rfl fun k _ => hterm k]
  simp only [Finset.sum_add_distrib, Finset.sum_sub_distrib, ite_mul, one_mul,
    zero_mul, Finset.sum_ite_eq, Finset.mem_univ, if_true, Finset.mul_sum,
    mul_ite, mul_one, mul_zero, Finset.sum_const, Finset.card_univ,
    Fintype.card_fin, nsmul_eq_mul]
  push_cast
  field_simp

lemma centerMat_mulVec_zero_sum (d : ℕ) (v : Fin (d + 1) → ℝ)
    (hv : (∑ i, v i) = 0) : centerMat d *ᵥ v = v := by
  funext i
  simp only [Matrix.mulVec, Matrix.dotProduct, centerMat_apply, sub_mul, ite_mul,
    one_mul, zero_mul, Finset.sum_sub_distrib, Finset.sum_ite_eq,
    Finset.mem_univ, if_true, ← Finset.mul_sum, hv, mul_zero, sub_zero]

lemma centerMat_mulVec_ones (d : ℕ) : centerMat d *ᵥ onesVec d = 0 := by
  funext i
  have hne := dimSucc_ne_zero d
  simp only [Matrix.mulVec, Matrix.dotProduct, onesVec, mul_one, centerMat_apply,
    Finset.sum_sub_distrib, Finset.sum_ite_eq, Finset.mem_univ, if_true,
    Finset.sum_const, Finset.card_univ, Fintype.card_fin, nsmul_eq_mul,
    Pi.zero_apply]
  push_cast
  field_simp

/-- Any combination of the first `d` columns of the centered matrix that
vanishes has all coefficients zero (those columns are independent). -/
lemma centerCols_indep {d : ℕ} (G : Fin d → ℝ)
    (h : ∀ i, (∑ t : Fin d, G t * centerMat d i t.castSucc) = 0) :
    ∀ t, G t = 0 := by
  have hne := dimSucc_ne_zero d
  have hS : (∑ t : Fin d, G t) = 0 := by
    have hlast := h (Fin.last d)
    have hrw : ∀ t : Fin d,
        G t * centerMat d (Fin.last d) t.castSucc = G t * -((d : ℝ) + 1)⁻¹ := by
      intro t
      rw [centerMat_apply, if_neg, zero_sub]
      intro hcontra
      exact (Fin.castSucc_lt_last t).ne' hcontra
    rw [Finset.sum_congr rfl fun t _ => hrw t, ← Finset.sum_mul] at hlast
    rcases mul_eq_zero.mp hlast with h' | h'
    · exact h'
    · exact absurd (neg_eq_zero.mp h') (inv_ne_zero hne)
  intro t0
  have ht0 := h t0.castSucc
  have hrw2 : ∀ t : Fin d, G t * centerMat d t0.castSucc t.castSucc
      = (if t0 = t then G t else 0) - G t * ((d : ℝ) + 1)⁻¹ := by
    intro t
    rw [centerMat_apply]
    by_cases hteq : t0 = t
    · rw [if_pos (by rw [hteq]), if_pos hteq]
      ring
    · rw [if_neg (fun hc => hteq (Fin.castSucc_inj.mp hc)), if_neg hteq]
      ring
  rw [Finset.sum_congr rfl fun t _ => hrw2 t, Finset.sum_sub_distrib] at ht0
  have h1 : (∑ t : Fin d, if t0 = t then G t else 0) = G t0 := by
    simp
  rw [h1, ← Finset.sum_mul, hS, zero_mul, sub_zero] at ht0
  exact ht0

end CenterMatLemmas

section QRFactorLemmas

/-- Reindex a sum over `Fin N` whose terms vanish from position `n` on. -/
lemma sum_fin_truncate {N n : ℕ} (hnN : n ≤ N) (f : Fin N → ℝ)
    (hf : ∀ t : Fin N, n ≤ (t : ℕ) → f t = 0) :
    (∑ t, f t) = ∑ k : Fin n, f ⟨(k : ℕ), lt_of_lt_of_le k.isLt hnN⟩ := by
  have h1 : (∑ t, f t)
      = ∑ t ∈ Finset.range N, (if ht : t < N then f ⟨t, ht⟩ else 0) := by
    rw [← Fin.sum_univ_eq_sum_range]
    refine Finset.sum_congr rfl fun t _ => ?_
    rw [dif_pos t.isLt, Fin.eta]
  have h2 : (∑ t ∈ Finset.range N, (if ht : t < N then f ⟨t, ht⟩ else 0))
      = ∑ t ∈ Finset.range n, (if ht : t < N then f ⟨t, ht⟩ else 0) := by
    refine (Finset.sum_subset (Finset.range_subset.mpr hnN) fun x hx hnx => ?_).symm
    rw [dif_pos (Finset.mem_range.mp hx)]
    exact hf _ (Nat.le_of_not_lt fun hc => hnx (Finset.mem_range.mpr hc))
  have h3 : (∑ t ∈ Finset.range n, (if ht : t < N then f ⟨t, ht⟩ else 0))
      = ∑ k : Fin n, f ⟨(k : ℕ), lt_of_lt_of_le k.isLt hnN⟩ := by
    rw [← Fin.sum_univ_eq_sum_range (fun t => if ht : t < N then f ⟨t, ht⟩ else 0) n]
    refine Finset.sum_congr rfl fun k _ => ?_
    rw [dif_pos (lt_of_lt_of_le k.isLt hnN)]
  rw [h1, h2, h3]

lemma vecMul_eq_transpose_mulVec {n m : ℕ} (A : Matrix (Fin n) (Fin m) ℝ)
    (u : Fin n → ℝ) : u ᵥ* A = Aᵀ *ᵥ u := by
  funext j
  simp [Matrix.vecMul, Matrix.mulVec, Matrix.dotProduct, Matrix.transpose_apply,
    mul_comm]

lemma RtR_eq_center {d : ℕ} {Q R : Matrix (Fin (d + 1)) (Fin (d + 1)) ℝ}
    (hQ : Qᵀ * Q = 1) (hA : centerMat d = Q * R) : Rᵀ * R = centerMat d := by
  calc Rᵀ * R = Rᵀ * ((1 : Matrix (Fin (d + 1)) (Fin (d + 1)) ℝ) * R) := by
        rw [Matrix.one_mul]
    _ = Rᵀ * (Qᵀ * (Q * R)) := by rw [← hQ, Matrix.mul_assoc]
    _ = (Q * R)ᵀ * (Q * R) := by rw [Matrix.transpose_mul, Matrix.mul_assoc]
    _ = (centerMat d)ᵀ * centerMat d := by rw [← hA]
    _ = centerMat d := by rw [centerMat_transpose, centerMat_idem]

/-- The upper-triangular QR factor of the centered matrix has nonzero
diagonal entries in its first `d` positions: otherwise its first columns
would be dependent, contradicting `centerCols_indep`. -/
lemma R_diag_ne_zero {d : ℕ} {R : Matrix (Fin (d + 1)) (Fin (d + 1)) ℝ}
    (hR : Matrix.BlockTriangular R id) (hRtR : Rᵀ * R = centerMat d) :
    ∀ j : Fin (d + 1), (j : ℕ) < d → R j j ≠ 0 := by
  intro j hj hz
  set m := (j : ℕ) with hm
  have hnli : ¬ LinearIndependent ℝ
      (fun k : Fin (m + 1) => fun i : Fin m =>
        R ⟨(i : ℕ), by omega⟩ ⟨(k : ℕ), by omega⟩) := by
    intro hli
    have hcard := hli.fintype_card_le_finrank
    rw [Module.finrank_pi] at hcard
    simp only [Fintype.card_fin] at hcard
    omega
  obtain ⟨g, hgsum, k0, hk0⟩ := Fintype.not_linearIndependent_iff.mp hnli
  set gQ : Fin (d + 1) → ℝ :=
    fun t => if h : (t : ℕ) < m + 1 then g ⟨(t : ℕ), h⟩ else 0 with hgQ
  have hyR : ∀ s : Fin (d + 1), (∑ t, gQ t * R s t) = 0 := by
    intro s
    by_cases hs : (s : ℕ) < m
    · have happ := congrFun hgsum ⟨(s : ℕ), hs⟩
      simp only [Finset.sum_apply, Pi.smul_apply, smul_eq_mul, Pi.zero_apply] at happ
      rw [sum_fin_truncate (show m + 1 ≤ d + 1 by omega) _
        (fun t ht => by
          simp only [hgQ]
          rw [dif_neg (by omega), zero_mul])]
      rw [← happ]
      refine Finset.sum_congr rfl fun k _ => ?_
      simp only [hgQ, Fin.val_mk]
      rw [dif_pos k.isLt]
    · refine Finset.sum_eq_zero fun t _ => ?_
      by_cases ht : (t : ℕ) < m + 1
      · by_cases hts : (t : ℕ) < (s : ℕ)
        · rw [hR (show id t < id s from hts), mul_zero]
        · have hsj : s = j := Fin.ext (by omega)
          have htj : t = j := Fin.ext (by omega)
          rw [hsj, htj, hz, mul_zero]
      · simp only [hgQ]
        rw [dif_neg ht, zero_mul]
  have hfull : ∀ i, (∑ t : Fin (d + 1), gQ t * centerMat d i t) = 0 := by
    intro i
    have hC : ∀ t, centerMat d i t = ∑ sI, R sI i * R sI t := by
      intro t
      rw [← hRtR]
      simp [Matrix.mul_apply, Matrix.transpose_apply]
    calc (∑ t, gQ t * centerMat d i t)
        = ∑ t, ∑ sI, gQ t * (R sI i * R sI t) := by
          refine Finset.sum_congr rfl fun t _ => ?_
          rw [hC t, Finset.mul_sum]
      _ = ∑ sI, ∑ t, gQ t * (R sI i * R sI t) := Finset.sum_comm
      _ = ∑ sI, R sI i * ∑ t, gQ t * R sI t := by
          refine Finset.sum_congr rfl fun sI _ => ?_
          rw [Finset.mul_sum]
          refine Finset.sum_congr rfl fun t _ => ?_
          ring
      _ = 0 := by
          refine Finset.sum_eq_zero fun sI _ => ?_
          rw [hyR sI, mul_zero]
  have hGzero := centerCols_indep (fun t : Fin d => gQ t.castSucc) (fun i => by
    have hful := hfull i
    rw [Fin.sum_univ_castSucc] at hful
    have hlast0 : gQ (Fin.last d) = 0 := by
      simp only [hgQ]
      rw [dif_neg (by simp only [Fin.val_last]; omega)]
    rw [hlast0, zero_mul, add_zero] at hful
    exact hful)
  have hk0d : (k0 : ℕ) < d := by omega
  have hgz := hGzero ⟨(k0 : ℕ), hk0d⟩
  simp only [hgQ, Fin.coe_castSucc, Fin.val_mk] at hgz
  rw [dif_pos k0.isLt] at hgz
  exact hk0 (by simpa using hgz)

/-- Column sums of the first `d` columns of the orthogonal factor vanish:
those columns lie in the zero-sum subspace. -/
lemma colsum_Q_vanish {d : ℕ} {Q R : Matrix (Fin (d + 1)) (Fin (d + 1)) ℝ}
    (hQ : Qᵀ * Q = 1) (hR : Matrix.BlockTriangular R id)
    (hA : centerMat d = Q * R) :
    ∀ j : Fin (d + 1), (j : ℕ) < d → (∑ i, Q i j) = 0 := by
  have hRtR := RtR_eq_center hQ hA
  have hdiag := R_diag_ne_zero hR hRtR
  have hvr : ∀ t : Fin (d + 1), (∑ s, (∑ i, Q i s) * R s t) = 0 := by
    intro t
    calc (∑ s, (∑ i, Q i s) * R s t) = ∑ s, ∑ i, Q i s * R s t := by
          refine Finset.sum_congr rfl fun s _ => ?_
          rw [Finset.sum_mul]
      _ = ∑ i, ∑ s, Q i s * R s t := Finset.sum_comm
      _ = ∑ i, (Q * R) i t := by simp [Matrix.mul_apply]
      _ = ∑ i, centerMat d i t := by rw [← hA]
      _ = 0 := centerMat_col_sum d t
  have main : ∀ n, ∀ hnd : n < d, (∑ i, Q i ⟨n, by omega⟩) = 0 := by
    intro n
    induction n using Nat.strong_induction_on with
    | _ n ih =>
      intro hnd
      have h0 := hvr ⟨n, by omega⟩
      rw [Finset.sum_eq_single (⟨n, by omega⟩ : Fin (d + 1))] at h0
      · rcases mul_eq_zero.mp h0 with h' | h'
        · exact h'
        · exact absurd h' (hdiag ⟨n, by omega⟩ hnd)
      · intro b _ hb
        rcases Nat.lt_or_ge (b : ℕ) n with hlt | hge
        · have hbz := ih (b : ℕ) hlt (by omega)
          rw [show (⟨(b : ℕ), by omega⟩ : Fin (d + 1)) = b from Fin.eta b b.isLt] at hbz
          rw [hbz, zero_mul]
        · have hgt : n < (b : ℕ) :=
            lt_of_le_of_ne hge fun hc => hb (Fin.ext hc.symm)
          rw [hR (show id (⟨n, by omega⟩ : Fin (d + 1)) < id b from hgt), mul_zero]
      · intro habs
        exact absurd (Finset.mem_univ _) habs
  intro j hj
  have hmain := main (j : ℕ) hj
  rw [show (⟨(j : ℕ), by omega⟩ : Fin (d + 1)) = j from Fin.eta j j.isLt] at hmain
  exact hmain

lemma sliceQ_colsum {d : ℕ} {Q R : Matrix (Fin (d + 1)) (Fin (d + 1)) ℝ}
    (hQ : Qᵀ * Q = 1) (hR : Matrix.BlockTriangular R id)
    (hA : centerMat d = Q * R) :
    ∀ jj : Fin d, (∑ i, sliceQ d Q i jj) = 0 := by
  intro jj
  exact colsum_Q_vanish hQ hR hA jj.castSucc (by simp)

lemma sliceQ_orthonormal {d : ℕ} {Q : Matrix (Fin (d + 1)) (Fin (d + 1)) ℝ}
    (hQ : Qᵀ * Q = 1) : (sliceQ d Q)ᵀ * sliceQ d Q = 1 := by
  ext a b
  have h : (Qᵀ * Q) a.castSucc b.castSucc
      = (1 : Matrix (Fin (d + 1)) (Fin (d + 1)) ℝ) a.castSucc b.castSucc := by
    rw [hQ]
  simp only [Matrix.mul_apply, Matrix.transpose_apply, Matrix.one_apply] at h ⊢
  simp only [sliceQ, Matrix.of_apply]
  rw [h]
  simp [Fin.castSucc_inj]

lemma sliceQ_proj {d : ℕ} {Q R : Matrix (Fin (d + 1)) (Fin (d + 1)) ℝ}
    (hQ : Qᵀ * Q = 1) (hR : Matrix.BlockTriangular R id)
    (hA : centerMat d = Q * R) :
    sliceQ d Q * (sliceQ d Q)ᵀ = centerMat d := by
  have hQQt : Q * Qᵀ = 1 := Matrix.mul_eq_one_comm.mp hQ
  set v : Fin (d + 1) → ℝ := fun i => Q i (Fin.last d) with hv
  have hsplit : ∀ i k : Fin (d + 1),
      (∑ jj : Fin d, Q i jj.castSucc * Q k jj.castSucc) + v i * v k
        = if i = k then (1 : ℝ) else 0 := by
    intro i k
    have h : (Q * Qᵀ) i k = (1 : Matrix (Fin (d + 1)) (Fin (d + 1)) ℝ) i k := by
      rw [hQQt]
    simp only [Matrix.mul_apply, Matrix.transpose_apply, Matrix.one_apply] at h
    rw [Fin.sum_univ_castSucc] at h
    exact h
  have hcolsum := sliceQ_colsum hQ hR hA
  have hvS : ∀ i, v i * (∑ i', v i') = 1 := by
    intro i
    have h1 : (∑ k', ((∑ jj : Fin d, Q i jj.castSucc * Q k' jj.castSucc) + v i * v k'))
        = ∑ k', (if i = k' then (1 : ℝ) else 0) :=
      Finset.sum_congr rfl fun k' _ => hsplit i k'
    rw [Finset.sum_add_distrib] at h1
    have h2 : (∑ k' : Fin (d + 1), ∑ jj : Fin d, Q i jj.castSucc * Q k' jj.castSucc) = 0 := by
      rw [Finset.sum_comm]
      refine Finset.sum_eq_zero fun jj _ => ?_
      have hcs := hcolsum jj
      simp only [sliceQ, Matrix.of_apply] at hcs
      rw [← Finset.mul_sum, hcs, mul_zero]
    rw [h2, zero_add, ← Finset.mul_sum] at h1
    simpa using h1
  have hSne : (∑ i', v i') ≠ 0 := by
    intro h0
    have := hvS 0
    rw [h0, mul_zero] at this
    exact one_ne_zero this.symm
  have hS2 : (∑ i', v i') * (∑ i', v i') = (d : ℝ) + 1 := by
    have h1 : (∑ i, v i * (∑ i', v i')) = ∑ i : Fin (d + 1), (1 : ℝ) :=
      Finset.sum_congr rfl fun i _ => hvS i
    rw [← Finset.sum_mul] at h1
    simpa using h1
  have hvv : ∀ i k, v i * v k = ((d : ℝ) + 1)⁻¹ := by
    intro i k
    have hvi : v i = (∑ i', v i')⁻¹ := by
      rw [← one_mul (∑ i', v i')⁻¹, ← hvS i, mul_assoc, mul_inv_cancel₀ hSne, mul_one]
    have hvk : v k = (∑ i', v i')⁻¹ := by
      rw [← one_mul (∑ i', v i')⁻¹, ← hvS k, mul_assoc, mul_inv_cancel₀ hSne, mul_one]
    rw [hvi, hvk, ← mul_inv, hS2]
  ext i k
  have hs := hsplit i k
  simp only [Matrix.mul_apply, Matrix.transpose_apply, sliceQ, Matrix.of_apply,
    centerMat_apply]
  have hsum : (∑ jj : Fin d, Q i jj.castSucc * Q k jj.castSucc)
      = (if i = k then (1 : ℝ) else 0) - v i * v k := by
    rw [← hs]
    ring
  rw [hsum, hvv i k]

end QRFactorLemmas

section TraversalLemmas

lemma list_range_map_sum (f : ℕ → ℚ) (n : ℕ) :
    ((List.range n).map f).sum = ∑ k ∈ Finset.range n, f k := by
  induction n with
  | zero => simp
  | succ n ih =>
    rw [List.range_succ, List.map_append, List.sum_append,
      Finset.sum_range_succ, ih]
    simp

/-- The slot contributions of the barycentric accumulator cancel in
total: each coordinate adds and subtracts the same remainder once. -/
lemma barySlot_total (d : ℕ) (del : List ℚ) (rankf : List ℕ) :
    (∑ s ∈ Finset.range (d + 2), barySlot d del rankf s) = 0 := by
  unfold barySlot
  rw [Finset.sum_comm]
  refine Finset.sum_eq_zero fun i _ => ?_
  rw [← Finset.mul_sum]
  have hA : (∑ s ∈ Finset.range (d + 2),
      (if d - rankf.getD i 0 = s then (1 : ℚ) else 0)) = 1 := by
    rw [Finset.sum_ite_eq]
    rw [if_pos (Finset.mem_range.mpr (by omega))]
  have hB : (∑ s ∈ Finset.range (d + 2),
      (if d + 1 - rankf.getD i 0 = s then (1 : ℚ) else 0)) = 1 := by
    rw [Finset.sum_ite_eq]
    rw [if_pos (Finset.mem_range.mpr (by omega))]
  rw [Finset.sum_sub_distrib, hA, hB, sub_self, mul_zero]

/-- The `d+1` barycentric weights always sum to 1. -/
lemma baryWeight_sum (d : ℕ) (del : List ℚ) (rankf : List ℕ) :
    (∑ k ∈ Finset.range (d + 1), baryWeight d del rankf k) = 1 := by
  unfold baryWeight
  rw [Finset.sum_add_distrib]
  have h2 : (∑ k ∈ Finset.range (d + 1),
      if k = 0 then 1 + barySlot d del rankf (d + 1) else 0)
      = 1 + barySlot d del rankf (d + 1) := by
    rw [Finset.sum_ite_eq']
    rw [if_pos (Finset.mem_range.mpr (by omega))]
  rw [h2]
  have h1 := barySlot_total d del rankf
  rw [Finset.sum_range_succ] at h1
  linarith

end TraversalLemmas

section WitnessLemmas

lemma sqrt2_mul_self : Real.sqrt 2 * Real.sqrt 2 = 2 :=
  Real.mul_self_sqrt (by norm_num)

lemma sqrt2_ne_zero : Real.sqrt 2 ≠ 0 := by positivity

lemma qWitness_isQR : IsQR (centerMat 1) qWitness rWitness := by
  refine ⟨?_, ?_, ?_⟩
  · ext i j
    fin_cases i <;> fin_cases j <;>
      simp [qWitness, Matrix.mul_apply, Fin.sum_univ_two, Matrix.transpose_apply,
        Matrix.one_apply] <;>
      field_simp <;>
      nlinarith [sqrt2_mul_self]
  · intro i j hij
    fin_cases i <;> fin_cases j <;> simp_all [rWitness]
  · ext i j
    fin_cases i <;> fin_cases j <;>
      simp [centerMat, qWitness, rWitness, Matrix.mul_apply, Fin.sum_univ_two] <;>
      field_simp <;>
      nlinarith [sqrt2_mul_self]

end WitnessLemmas

/-- Claim C1 (counterexample): at `dim = 1`, `count = 1` the function does
not return a `[count, dim, dim]` tensor: the computed shape is
`[1, 2, 2]`, not `[1, 1, 1]`. -/
theorem C1_shape_counterexample :
    random_rotation_in_zero_sum_subspace_shape 1 1 ≠ some [1, 1, 1] := by
  decide

/-- Claim C1 (amended): for every `dim ≥ 1` and `count ≥ 1`,
`random_rotation_in_zero_sum_subspace_cuda(dim, count, device, dtype)`
returns a tensor of shape `[count, dim + 1, dim + 1]`. -/
theorem C1_shape_amended (dim num : ℕ) (hd : 1 ≤ dim) (hn : 1 ≤ num) :
    random_rotation_in_zero_sum_subspace_shape dim num =
      some [num, dim + 1, dim + 1] := by
  simp [random_rotation_in_zero_sum_subspace_shape, transpose01Shape, matmulShape,
    subShape, eyeShape, qrQShape, sliceColsDropLast, unsqueeze0Shape, expandBatch,
    indexBatch, assignShape, Option.bind]

/-- Witness for the amended claim C1 at `dim = 1`, `count = 1`. -/
theorem C1_shape_amended_witness :
    random_rotation_in_zero_sum_subspace_shape 1 1 = some [1, 2, 2] :=
  C1_shape_amended 1 1 (by decide) (by decide)

/-- Claim C2: every matrix `M` produced by
`random_rotation_in_zero_sum_subspace_cuda` (one batch element of
permuto.cpp line 61, under the QR contract for the two `torch::linalg::qr`
calls of lines 46 and 52) annihilates the uniform direction on both
sides (`M·1 = 0` and `1ᵀ·M = 0`) and maps every zero-sum vector to a
zero-sum vector. -/
theorem C2_zero_sum_action (d : ℕ)
    (qFull rFull : Matrix (Fin (d + 1)) (Fin (d + 1)) ℝ)
    (ri : Matrix (Fin d) (Fin d) ℝ)
    (hqr : IsQR (centerMat d) qFull rFull) (hri : riᵀ * ri = 1) :
    rotationMatrix d qFull ri *ᵥ onesVec d = 0 ∧
    onesVec d ᵥ* rotationMatrix d qFull ri = 0 ∧
    ∀ v : Fin (d + 1) → ℝ, (∑ i, v i) = 0 →
      (∑ i, (rotationMatrix d qFull ri *ᵥ v) i) = 0 := by
  obtain ⟨hQ, hR, hA⟩ := hqr
  have hcolsum := sliceQ_colsum hQ hR hA
  have hQst1 : (sliceQ d qFull)ᵀ *ᵥ onesVec d = 0 := by
    funext jj
    simp only [Matrix.mulVec, Matrix.dotProduct, Matrix.transpose_apply, onesVec,
      mul_one, Pi.zero_apply]
    exact hcolsum jj
  have hones_vecMul : onesVec d ᵥ* sliceQ d qFull = 0 := by
    funext jj
    simp only [Matrix.vecMul, Matrix.dotProduct, onesVec, one_mul, Pi.zero_apply]
    exact hcolsum jj
  have hb : onesVec d ᵥ* rotationMatrix d qFull ri = 0 := by
    rw [rotationMatrix, ← Matrix.vecMul_vecMul, ← Matrix.vecMul_vecMul,
      hones_vecMul, Matrix.zero_vecMul, Matrix.zero_vecMul]
  refine ⟨?_, hb, ?_⟩
  · rw [rotationMatrix, ← Matrix.mulVec_mulVec, ← Matrix.mulVec_mulVec,
      hQst1, Matrix.mulVec_zero, Matrix.mulVec_zero]
  · intro v hv
    have hswap : (∑ i, (rotationMatrix d qFull ri *ᵥ v) i)
        = ∑ k, (∑ i, rotationMatrix d qFull ri i k) * v k := by
      simp only [Matrix.mulVec, Matrix.dotProduct]
      rw [Finset.sum_comm]
      refine Finset.sum_congr rfl fun k _ => ?_
      rw [Finset.sum_mul]
    rw [hswap]
    refine Finset.sum_eq_zero fun k _ => ?_
    have hcol : (∑ i, rotationMatrix d qFull ri i k) = 0 := by
      have := congrFun hb k
      simp only [Matrix.vecMul, Matrix.dotProduct, onesVec, one_mul,
        Pi.zero_apply] at this
      exact this
    rw [hcol, zero_mul]

/-- Claim C3: the matrices produced by
`random_rotation_in_zero_sum_subspace_cuda` are orthogonal as transforms
of the zero-sum subspace: `MᵀM` equals the centered matrix, which is the
orthogonal projector onto that subspace (symmetric, idempotent, kills
the uniform direction, fixes zero-sum vectors), so `M` preserves the
squared norm `v ⬝ᵥ v` of every zero-sum vector. -/
theorem C3_orthogonality (d : ℕ)
    (qFull rFull : Matrix (Fin (d + 1)) (Fin (d + 1)) ℝ)
    (ri : Matrix (Fin d) (Fin d) ℝ)
    (hqr : IsQR (centerMat d) qFull rFull) (hri : riᵀ * ri = 1) :
    (rotationMatrix d qFull ri)ᵀ * rotationMatrix d qFull ri = centerMat d ∧
    (centerMat d)ᵀ = centerMat d ∧
    centerMat d * centerMat d = centerMat d ∧
    centerMat d *ᵥ onesVec d = 0 ∧
    (∀ v : Fin (d + 1) → ℝ, (∑ i, v i) = 0 → centerMat d *ᵥ v = v) ∧
    ∀ v : Fin (d + 1) → ℝ, (∑ i, v i) = 0 →
      (rotationMatrix d qFull ri *ᵥ v) ⬝ᵥ (rotationMatrix d qFull ri *ᵥ v)
        = v ⬝ᵥ v := by
  obtain ⟨hQ, hR, hA⟩ := hqr
  have hslice1 : (sliceQ d qFull)ᵀ * sliceQ d qFull = 1 := sliceQ_orthonormal hQ
  have hproj : sliceQ d qFull * (sliceQ d qFull)ᵀ = centerMat d :=
    sliceQ_proj hQ hR hA
  have hMtM : (rotationMatrix d qFull ri)ᵀ * rotationMatrix d qFull ri
      = centerMat d := by
    rw [rotationMatrix]
    calc (sliceQ d qFull * ri * (sliceQ d qFull)ᵀ)ᵀ *
          (sliceQ d qFull * ri * (sliceQ d qFull)ᵀ)
        = sliceQ d qFull * (riᵀ *
            (((sliceQ d qFull)ᵀ * sliceQ d qFull) * (ri * (sliceQ d qFull)ᵀ))) := by
          simp only [Matrix.transpose_mul, Matrix.transpose_transpose,
            Matrix.mul_assoc]
      _ = sliceQ d qFull * ((riᵀ * ri) * (sliceQ d qFull)ᵀ) := by
          rw [hslice1, Matrix.one_mul, Matrix.mul_assoc]
      _ = sliceQ d qFull * (sliceQ d qFull)ᵀ := by rw [hri, Matrix.one_mul]
      _ = centerMat d := hproj
  refine ⟨hMtM, centerMat_transpose d, centerMat_idem d, centerMat_mulVec_ones d,
    fun v hv => centerMat_mulVec_zero_sum d v hv, ?_⟩
  intro v hv
  calc (rotationMatrix d qFull ri *ᵥ v) ⬝ᵥ (rotationMatrix d qFull ri *ᵥ v)
      = ((rotationMatrix d qFull ri *ᵥ v) ᵥ* rotationMatrix d qFull ri) ⬝ᵥ v :=
        Matrix.dotProduct_mulVec _ _ _
    _ = ((rotationMatrix d qFull ri)ᵀ *ᵥ (rotationMatrix d qFull ri *ᵥ v)) ⬝ᵥ v := by
        rw [vecMul_eq_transpose_mulVec]
    _ = (((rotationMatrix d qFull ri)ᵀ * rotationMatrix d qFull ri) *ᵥ v) ⬝ᵥ v := by
        rw [Matrix.mulVec_mulVec]
    _ = (centerMat d *ᵥ v) ⬝ᵥ v := by rw [hMtM]
    _ = v ⬝ᵥ v := by rw [centerMat_mulVec_zero_sum d v hv]

/-- Witness for claim C2: at `dim = 1`, with the concrete QR factors of
the centered matrix and the identity as the random orthogonal factor,
the produced matrix annihilates the uniform direction on both sides. -/
theorem C2_zero_sum_action_witness :
    rotationMatrix 1 qWitness (1 : Matrix (Fin 1) (Fin 1) ℝ) *ᵥ onesVec 1 = 0 ∧
    onesVec 1 ᵥ* rotationMatrix 1 qWitness (1 : Matrix (Fin 1) (Fin 1) ℝ) = 0 := by
  have h := C2_zero_sum_action 1 qWitness rWitness 1 qWitness_isQR (by simp)
  exact ⟨h.1, h.2.1⟩

/-- Witness for claim C3: at `dim = 1`, with the concrete QR factors of
the centered matrix and the identity as the random orthogonal factor,
`MᵀM` is exactly the projector onto the zero-sum subspace. -/
theorem C3_orthogonality_witness :
    (rotationMatrix 1 qWitness (1 : Matrix (Fin 1) (Fin 1) ℝ))ᵀ *
      rotationMatrix 1 qWitness (1 : Matrix (Fin 1) (Fin 1) ℝ) = centerMat 1 :=
  (C3_orthogonality 1 qWitness rWitness 1 qWitness_isQR (by simp)).1

/-- Claim C4: `build_meta` fails with a configuration error exactly when
`n_levels = res_list.length` is outside `[2, 20]`, some entry of
`n_feats_list` is below 2, or the two lists have mismatched lengths; on
every valid input it succeeds and produces the meta object without
clamping any of the given configuration. -/
theorem C4_build_meta_validation (n_input_dim hashmap_size : ℕ)
    (res_list : List ℚ) (n_feats_list : List ℕ) :
    ((∃ m, build_meta n_input_dim hashmap_size res_list n_feats_list
        = Except.ok m) ↔ validConfig res_list n_feats_list) ∧
    ((∃ e, build_meta n_input_dim hashmap_size res_list n_feats_list
        = Except.error e) ↔ ¬ validConfig res_list n_feats_list) ∧
    ∀ m, build_meta n_input_dim hashmap_size res_list n_feats_list
        = Except.ok m →
      m.n_levels = res_list.length ∧ m.level_n_feats = n_feats_list ∧
        m.level_scales0 = res_list ∧ m.n_dims_to_encode = n_input_dim := by
  by_cases hc1 : res_list.length < 2 ∨ 20 < res_list.length
  · simp only [build_meta, if_pos hc1]
    refine ⟨?_, ?_, ?_⟩
    · constructor
      · rintro ⟨m, hm⟩
        simp at hm
      · intro hv
        obtain ⟨ha, hb, _, _⟩ := hv
        omega
    · exact ⟨fun _ hv => by obtain ⟨ha, hb, _, _⟩ := hv; omega, fun _ => ⟨_, rfl⟩⟩
    · intro m hm
      simp at hm
  · by_cases hc2 : ∃ f ∈ n_feats_list, f < 2
    · simp only [build_meta, if_neg hc1, if_pos hc2]
      have hnv : ¬ validConfig res_list n_feats_list := by
        intro hv
        obtain ⟨f, hf, hflt⟩ := hc2
        have := hv.2.2.1 f hf
        omega
      refine ⟨?_, ?_, ?_⟩
      · constructor
        · rintro ⟨m, hm⟩
          simp at hm
        · intro hv
          exact absurd hv hnv
      · exact ⟨fun _ => hnv, fun _ => ⟨_, rfl⟩⟩
      · intro m hm
        simp at hm
    · by_cases hc3 : n_feats_list.length ≠ res_list.length
      · simp only [build_meta, if_neg hc1, if_neg hc2, if_pos hc3]
        have hnv : ¬ validConfig res_list n_feats_list := fun hv => hc3 hv.2.2.2
        refine ⟨?_, ?_, ?_⟩
        · constructor
          · rintro ⟨m, hm⟩
            simp at hm
          · intro hv
            exact absurd hv hnv
        · exact ⟨fun _ => hnv, fun _ => ⟨_, rfl⟩⟩
        · intro m hm
          simp at hm
      · simp only [build_meta, if_neg hc1, if_neg hc2, if_neg hc3]
        have hvalid : validConfig res_list n_feats_list := by
          refine ⟨by omega, by omega, ?_, by omega⟩
          intro f hf
          by_contra hcon
          exact hc2 ⟨f, hf, by omega⟩
        refine ⟨?_, ?_, ?_⟩
        · exact ⟨fun _ => hvalid, fun _ => ⟨_, rfl⟩⟩
        · constructor
          · rintro ⟨e, he⟩
            simp at he
          · intro hnv
            exact absurd hvalid hnv
        · intro m hm
          injection hm with hm
          subst hm
          exact ⟨rfl, rfl, rfl, rfl⟩

/-- Claim C5: every field of a constructed `PermutoEncMeta` is read-only
after construction: each exposed operation (forward, backward,
second-order backward, binding-level attribute access, and the random
rotation utility) leaves the state's meta object — hence each of its
fields — untouched, and the binding exposes no writing operation. -/
theorem C5_meta_read_only {N : ℕ} (s : SysState) (positions : Fin N → List ℚ)
    (lattice_values : ℕ → ℕ → ℚ) (dL_dy : Fin N → ℕ → ℚ)
    (dL_ddLdx : Fin N → List ℚ) (shifts : Option (List (List ℚ)))
    (batch_inds : Option (Fin N → ℕ)) (batch_offsets : Option (List ℕ))
    (batch_data_size : Option ℕ) (max_level : Option ℕ) (max_pos_dims : ℕ)
    (f1 f2 g1 g2 : Option Bool) (dim num : ℕ) :
    (api_encode_forward s positions lattice_values shifts batch_inds
        batch_offsets batch_data_size max_level).1.meta = s.meta ∧
    (api_encode_backward s dL_dy positions lattice_values shifts batch_inds
        batch_offsets batch_data_size max_level max_pos_dims f1 f2).1.meta
      = s.meta ∧
    (api_encode_backward_backward_input s dL_ddLdx dL_dy positions
        lattice_values shifts batch_inds batch_offsets batch_data_size
        max_level g1 g2).1.meta = s.meta ∧
    (api_read_meta s).1.meta = s.meta ∧
    (api_random_rotation s dim num).1.meta = s.meta :=
  ⟨rfl, rfl, rfl, rfl, rfl⟩

/-- Claim C6: `permuto_enc_fwd` is callable with only
`(meta, positions, lattice_values)`; the five remaining arguments
default to absent, and such a call computes the features of every level:
it agrees with an explicit call whose `max_level` covers all levels. -/
theorem C6_fwd_defaults {N : ℕ} (meta : PermutoEncMeta)
    (positions : Fin N → List ℚ) (lattice_values : ℕ → ℕ → ℚ) :
    permuto_enc_fwd meta positions lattice_values
        = permuto_enc_fwd meta positions lattice_values none none none none none ∧
    permuto_enc_fwd meta positions lattice_values
        = permuto_enc_fwd meta positions lattice_values none none none none
            (some meta.n_levels) := by
  refine ⟨rfl, ?_⟩
  funext n
  unfold permuto_enc_fwd
  dsimp only
  congr 1
  refine List.map_congr_left fun l hl => ?_
  have hl' : l < meta.n_levels := List.mem_range.mp hl
  simp [levelActive, hl']

/-- Claim C7: in `permuto_enc_bwd` the `max_pos_dims` argument is
required (it has no default) while the two `need_*` flags are optional
and absent by default; omitting or clearing a flag only skips the
corresponding output, and any gradient that is produced is identical to
the one returned by a call computing both. -/
theorem C7_bwd_flags {N : ℕ} (meta : PermutoEncMeta) (dL_dy : Fin N → ℕ → ℚ)
    (positions : Fin N → List ℚ) (lattice_values : ℕ → ℕ → ℚ)
    (shifts : Option (List (List ℚ))) (batch_inds : Option (Fin N → ℕ))
    (batch_offsets : Option (List ℕ)) (batch_data_size : Option ℕ)
    (max_level : Option ℕ) (max_pos_dims : ℕ) (f1 f2 : Option Bool) :
    (permuto_enc_bwd meta dL_dy positions lattice_values shifts batch_inds
        batch_offsets batch_data_size max_level max_pos_dims f1 f2).1
      = (if f1 = some true then
          (permuto_enc_bwd meta dL_dy positions lattice_values shifts
            batch_inds batch_offsets batch_data_size max_level max_pos_dims
            (some true) (some true)).1
         else none) ∧
    (permuto_enc_bwd meta dL_dy positions lattice_values shifts batch_inds
        batch_offsets batch_data_size max_level max_pos_dims f1 f2).2
      = (if f2 = some true then
          (permuto_enc_bwd meta dL_dy positions lattice_values shifts
            batch_inds batch_offsets batch_data_size max_level max_pos_dims
            (some true) (some true)).2
         else none) ∧
    permuto_enc_bwd meta dL_dy positions lattice_values shifts batch_inds
        batch_offsets batch_data_size max_level max_pos_dims = (none, none) := by
  refine ⟨?_, ?_, rfl⟩
  · by_cases h : f1 = some true <;> simp [permuto_enc_bwd, h]
  · by_cases h : f2 = some true <;> simp [permuto_enc_bwd, h]

/-- Claim C8: for every dimension and every query coordinate, the `d+1`
barycentric weights produced by the lattice traversal (the same weights
`permuto_enc_fwd`'s per-level gather uses) sum exactly to 1. -/
theorem C8_weights_sum_one (d : ℕ) (x : List ℚ) :
    (traverse d x).weights.length = d + 1 ∧ (traverse d x).weights.sum = 1 := by
  constructor
  · simp [traverse]
  · show ((List.range (d + 1)).map _).sum = 1
    rw [list_range_map_sum]
    exact baryWeight_sum d _ _

/-- Claim C9: forward and backward are order-independent in the query
batch: permuting all per-query inputs (the rows of `positions` and
`dL_dy`, and the per-query batch indices) permutes the returned features
the same way and leaves the accumulated `dL_dparams` exactly equal. -/
theorem C9_order_independence {N : ℕ} (meta : PermutoEncMeta)
    (positions : Fin N → List ℚ) (lattice_values : ℕ → ℕ → ℚ)
    (dL_dy : Fin N → ℕ → ℚ) (shifts : Option (List (List ℚ)))
    (batch_inds : Option (Fin N → ℕ)) (batch_data_size : Option ℕ)
    (max_level : Option ℕ) (max_pos_dims : ℕ) (σ : Equiv.Perm (Fin N)) :
    permuto_enc_fwd meta (fun n => positions (σ n)) lattice_values shifts
        (batch_inds.map fun bi n => bi (σ n)) none batch_data_size max_level
      = (fun n => permuto_enc_fwd meta positions lattice_values shifts
          batch_inds none batch_data_size max_level (σ n)) ∧
    (permuto_enc_bwd meta (fun n => dL_dy (σ n)) (fun n => positions (σ n))
        lattice_values shifts (batch_inds.map fun bi n => bi (σ n)) none
        batch_data_size max_level max_pos_dims (some true) (some true)).2
      = (permuto_enc_bwd meta dL_dy positions lattice_values shifts batch_inds
          none batch_data_size max_level max_pos_dims (some true)
          (some true)).2 := by
  have hbatch : ∀ n, batchOf (batch_inds.map fun bi n => bi (σ n)) none n
      = batchOf batch_inds none (σ n) := by
    intro n
    cases batch_inds <;> simp [batchOf, Option.map]
  constructor
  · funext n
    unfold permuto_enc_fwd
    rw [hbatch n]
  · simp only [permuto_enc_bwd, if_pos rfl]
    refine congrArg some ?_
    funext r f
    calc (∑ n, point_param_grad meta
          (batchOf (batch_inds.map fun bi n => bi (σ n)) none n *
            batch_data_size.getD 0)
          (positions (σ n)) shifts max_level (dL_dy (σ n)) r f)
        = ∑ n, point_param_grad meta
            (batchOf batch_inds none (σ n) * batch_data_size.getD 0)
            (positions (σ n)) shifts max_level (dL_dy (σ n)) r f := by
          refine Finset.sum_congr rfl fun n _ => ?_
          rw [hbatch n]
      _ = ∑ n, point_param_grad meta
            (batchOf batch_inds none n * batch_data_size.getD 0)
            (positions n) shifts max_level (dL_dy n) r f :=
          Equiv.sum_comp σ fun n => point_param_grad meta
            (batchOf batch_inds none n * batch_data_size.getD 0)
            (positions n) shifts max_level (dL_dy n) r f

/-- Claim C10: `random_rotation_in_zero_sum_subspace_cuda` is not a
deterministic function of `(dim, num, device, dtype)`: every call
advances the global generator state, and two contract-valid executions
with identical arguments but different random draws (as produced by
different generator states) return different tensors. -/
theorem C10_rng_dependence :
    (∀ (s : SysState) (dim num : ℕ), 1 ≤ dim → 1 ≤ num →
      (api_random_rotation s dim num).1.rng ≠ s.rng) ∧
    ∃ (qF rF : Matrix (Fin 2) (Fin 2) ℝ)
      (a1 q1 r1 a2 q2 r2 : Matrix (Fin 1) (Fin 1) ℝ),
      IsQR (centerMat 1) qF rF ∧ IsQR a1 q1 r1 ∧ IsQR a2 q2 r2 ∧ a1 ≠ a2 ∧
        rotationMatrix 1 qF q1 ≠ rotationMatrix 1 qF q2 := by
  constructor
  · intro s dim num hd hn
    simp only [api_random_rotation, ne_eq]
    intro hcontra
    have hz : num * dim * dim = 0 := by omega
    rcases Nat.mul_eq_zero.mp hz with hz' | hz'
    · rcases Nat.mul_eq_zero.mp hz' with hz'' | hz'' <;> omega
    · omega
  · refine ⟨qWitness, rWitness, ![![(2 : ℝ)]], ![![(1 : ℝ)]], ![![(2 : ℝ)]],
      ![![(-2 : ℝ)]], ![![(-1 : ℝ)]], ![![(2 : ℝ)]],
      qWitness_isQR, ⟨?_, ?_, ?_⟩, ⟨?_, ?_, ?_⟩, ?_, ?_⟩
    · ext i j
      fin_cases i <;> fin_cases j <;>
        simp [Matrix.mul_apply, Fin.sum_univ_one, Matrix.transpose_apply,
          Matrix.one_apply]
    · intro i j hij
      fin_cases i <;> fin_cases j <;> simp_all
    · ext i j
      fin_cases i <;> fin_cases j <;> simp [Matrix.mul_apply, Fin.sum_univ_one]
    · ext i j
      fin_cases i <;> fin_cases j <;>
        simp [Matrix.mul_apply, Fin.sum_univ_one, Matrix.transpose_apply,
          Matrix.one_apply]
    · intro i j hij
      fin_cases i <;> fin_cases j <;> simp_all
    · ext i j
      fin_cases i <;> fin_cases j <;> simp [Matrix.mul_apply, Fin.sum_univ_one]
    · intro hcontra
      have h00 := Matrix.ext_iff.mpr hcontra 0 0
      simp at h00
      norm_num at h00
    · intro hcontra
      have h00 := Matrix.ext_iff.mpr hcontra 0 0
      simp only [rotationMatrix, sliceQ, qWitness, Matrix.mul_apply,
        Fin.sum_univ_one, Matrix.transpose_apply, Matrix.of_apply,
        Fin.castSucc_zero, Matrix.cons_val_zero] at h00
      have hpos : (0 : ℝ) < (Real.sqrt 2)⁻¹ * (Real.sqrt 2)⁻¹ := by
        have : (0 : ℝ) < Real.sqrt 2 := Real.sqrt_pos.mpr (by norm_num)
        positivity
      nlinarith [h00, hpos]

/-- Witness for claim C4: the scenario configuration of §8
(`n_levels = 4`, widths all 2) is valid and `build_meta` accepts it. -/
theorem C4_build_meta_validation_witness :
    ∃ m, build_meta 3 16384 [16, 32, 64, 128] [2, 2, 2, 2] = Except.ok m :=
  (C4_build_meta_validation 3 16384 [16, 32, 64, 128] [2, 2, 2, 2]).1.mpr
    (by decide)

/-- Witness for claim C10: a concrete call at `dim = num = 1` advances
the generator state. -/
theorem C10_rng_dependence_witness :
    (api_random_rotation ⟨metaEmpty, 0⟩ 1 1).1.rng
      ≠ (⟨metaEmpty, 0⟩ : SysState).rng :=
  C10_rng_dependence.1 ⟨metaEmpty, 0⟩ 1 1 (by decide) (by decide)

end Permuto
